import Mathlib

/-!
Verification development for the AA_LD4 repository: subset-sum algorithm
variants, Dijkstra shortest path, the benchmark runner loops, the timing
helper and the growth-rate estimator, shallowly embedded from the Python
sources, together with proofs of the spec's testable properties.

Machine integers do not arise: Python integers are unbounded, so they are
embedded as `Int`/`Nat`; float durations are embedded as `ℚ` and the
`float('infinity')` distance sentinel as `⊤ : WithTop Int`.
-/

/- ====================================================================
   src/src/algorithms/subset_sum.py
   ==================================================================== -/

/-- Embedding of the inner `backtrack` of `subset_sum_backtracking`
(src/src/algorithms/subset_sum.py lines 28-44).  Walking the index through
`nums` is embedded as consuming the list; `current_sum` is the accumulator.
Base cases in source order: `current_sum == target` returns True, then
index exhaustion or `current_sum > target` returns False, else include the
element first, then exclude it. -/
def btBacktrack (target : Int) : List Int → Int → Bool
  | [], cs => if cs = target then true else false
  | n :: rest, cs =>
    if cs = target then true
    else if cs > target then false
    else btBacktrack target rest (cs + n) || btBacktrack target rest cs

/-- Embedding of `subset_sum_backtracking` (lines 13-50): filter out
elements above the target, sort ascending (Python `list.sort()`; on `Int`
the sorted permutation is unique, so stable insertion sort is an exact
model), then run the pruned backtracking from index 0 with sum 0. -/
def subset_sum_backtracking (nums : List Int) (target : Int) : Bool :=
  btBacktrack target (List.insertionSort (· ≤ ·) (nums.filter (fun n => n ≤ target))) 0

/-- Embedding of the inner `backtrack` of `subset_sum_exhaustive`
(lines 70-79): at index exhaustion compare the accumulated sum with the
target, otherwise explore the include branch and the exclude branch. -/
def exhBacktrack (target : Int) : List Int → Int → Bool
  | [], cs => cs == target
  | n :: rest, cs => exhBacktrack target rest (cs + n) || exhBacktrack target rest cs

/-- Embedding of `subset_sum_exhaustive` (lines 53-81). -/
def subset_sum_exhaustive (nums : List Int) (target : Int) : Bool :=
  exhBacktrack target nums 0

/-- Reference decision function for subset sum, used as the common hub
when relating the three variants: a subset of `l` sums to `t`. -/
def canMake : List Int → Int → Bool
  | [], t => decide (t = 0)
  | n :: rest, t => canMake rest (t - n) || canMake rest t

/- Basic facts about the reference function. -/

theorem canMake_zero (l : List Int) : canMake l 0 = true := by
  induction l with
  | nil => simp [canMake]
  | cons n rest ih => simp [canMake, ih]

theorem canMake_neg {l : List Int} (hl : ∀ x ∈ l, 0 ≤ x) {t : Int} (ht : t < 0) :
    canMake l t = false := by
  induction l generalizing t with
  | nil => simp [canMake]; omega
  | cons n rest ih =>
    have hn : 0 ≤ n := hl n (by simp)
    have hrest : ∀ x ∈ rest, 0 ≤ x := fun x hx => hl x (by simp [hx])
    simp only [canMake, Bool.or_eq_false_iff]
    exact ⟨ih hrest (by omega), ih hrest ht⟩

theorem canMake_gt_sum {l : List Int} (hl : ∀ x ∈ l, 0 ≤ x) {t : Int}
    (ht : l.sum < t) : canMake l t = false := by
  induction l generalizing t with
  | nil => simp at ht; simp [canMake]; omega
  | cons n rest ih =>
    have hn : 0 ≤ n := hl n (by simp)
    have hrest : ∀ x ∈ rest, 0 ≤ x := fun x hx => hl x (by simp [hx])
    simp only [List.sum_cons] at ht
    simp only [canMake, Bool.or_eq_false_iff]
    exact ⟨ih hrest (by omega), ih hrest (by omega)⟩

theorem canMake_perm {l l' : List Int} (h : l.Perm l') :
    ∀ t, canMake l t = canMake l' t := by
  induction h with
  | nil => intro t; rfl
  | cons x _ ih => intro t; simp [canMake, ih]
  | swap x y l =>
    intro t
    have harith : t - x - y = t - y - x := by omega
    simp only [canMake, harith]
    conv_lhs => rw [Bool.or_assoc]
    conv_rhs => rw [Bool.or_assoc]
    rw [Bool.or_left_comm (canMake l (t - x))]
  | trans _ _ ih₁ ih₂ => intro t; rw [ih₁ t, ih₂ t]

theorem canMake_filter {l : List Int} (hl : ∀ x ∈ l, 0 ≤ x) (target : Int) :
    ∀ t ≤ target, canMake (l.filter (fun n => n ≤ target)) t = canMake l t := by
  induction l with
  | nil => intro t _; rfl
  | cons n rest ih =>
    intro t ht
    have hn : 0 ≤ n := hl n (by simp)
    have hrest : ∀ x ∈ rest, 0 ≤ x := fun x hx => hl x (by simp [hx])
    by_cases hcase : n ≤ target
    · rw [List.filter_cons, if_pos (by simpa using hcase)]
      simp only [canMake]
      rw [ih hrest (t - n) (by omega), ih hrest t ht]
    · rw [List.filter_cons, if_neg (by simpa using hcase)]
      simp only [canMake]
      rw [canMake_neg hrest (t := t - n) (by omega), Bool.false_or]
      exact ih hrest t ht

/- Relating the exhaustive search to the reference function. -/

theorem exhBacktrack_eq_canMake (target : Int) (l : List Int) :
    ∀ cs, exhBacktrack target l cs = canMake l (target - cs) := by
  induction l with
  | nil =>
    intro cs
    simp only [exhBacktrack, canMake]
    rcases eq_or_ne cs target with h | h
    · subst h; simp
    · have h1 : (cs == target) = false := by simp [h]
      have h2 : decide (target - cs = 0) = false := by
        simp only [decide_eq_false_iff_not, sub_eq_zero]
        exact Ne.symm h
      rw [h1, h2]
  | cons n rest ih =>
    intro cs
    simp only [exhBacktrack, canMake, ih]
    congr 1
    congr 1
    omega

theorem subset_sum_exhaustive_eq_canMake (nums : List Int) (target : Int) :
    subset_sum_exhaustive nums target = canMake nums target := by
  rw [subset_sum_exhaustive, exhBacktrack_eq_canMake, sub_zero]

/- Relating the pruned backtracking to the reference function (sound only
when every element is nonnegative: the `current_sum > target` prune and
the `n <= target` filter can both discard solutions containing negative
elements). -/

theorem btBacktrack_eq_canMake (target : Int) {l : List Int}
    (hl : ∀ x ∈ l, 0 ≤ x) : ∀ cs, btBacktrack target l cs = canMake l (target - cs) := by
  induction l with
  | nil =>
    intro cs
    simp only [btBacktrack, canMake]
    rcases eq_or_ne cs target with h | h
    · subst h; simp
    · have h2 : decide (target - cs = 0) = false := by
        simp only [decide_eq_false_iff_not, sub_eq_zero]
        exact Ne.symm h
      rw [if_neg h, h2]
  | cons n rest ih =>
    intro cs
    have hn : 0 ≤ n := hl n (by simp)
    have hrest : ∀ x ∈ rest, 0 ≤ x := fun x hx => hl x (by simp [hx])
    by_cases heq : cs = target
    · subst heq
      simp [btBacktrack, canMake_zero]
    · by_cases hgt : cs > target
      · have hL : btBacktrack target (n :: rest) cs = false := by
          conv_lhs => rw [btBacktrack]
          rw [if_neg heq, if_pos hgt]
        rw [hL, canMake_neg hl (by omega)]
      · have hL : btBacktrack target (n :: rest) cs =
            (btBacktrack target rest (cs + n) || btBacktrack target rest cs) := by
          conv_lhs => rw [btBacktrack]
          rw [if_neg heq, if_neg hgt]
        rw [hL, ih hrest, ih hrest]
        simp only [canMake]
        congr 1
        congr 1
        omega

theorem subset_sum_backtracking_eq_canMake {nums : List Int}
    (hn : ∀ x ∈ nums, 0 ≤ x) (target : Int) :
    subset_sum_backtracking nums target = canMake nums target := by
  rw [subset_sum_backtracking]
  have hperm := List.perm_insertionSort (· ≤ ·) (nums.filter (fun n => n ≤ target))
  have hsorted_nonneg : ∀ x ∈ List.insertionSort (· ≤ ·) (nums.filter (fun n => n ≤ target)),
      0 ≤ x := by
    intro x hx
    have hx' := hperm.mem_iff.mp hx
    exact hn x (List.mem_filter.mp hx').1
  rw [btBacktrack_eq_canMake target hsorted_nonneg 0, sub_zero,
    canMake_perm hperm target]
  exact canMake_filter hn target target le_rfl

/- ====================================================================
   Python list semantics for the DP table of subset_sum_dynamic
   ==================================================================== -/

/-- Python list index resolution: indices in `[0, len)` are used directly,
indices in `[-len, 0)` wrap around, anything else raises `IndexError`
(modelled as `none`). -/
def pyIdx (len : Nat) (i : Int) : Option Nat :=
  if 0 ≤ i ∧ i < (len : Int) then some i.toNat
  else if -(len : Int) ≤ i ∧ i < 0 then some (i + len).toNat
  else none

/-- Python `l[i]` read on a list of booleans. -/
def pyGet (l : List Bool) (i : Int) : Option Bool :=
  (pyIdx l.length i).bind fun j => l[j]?

/-- Python `l[i] = v` write on a list of booleans. -/
def pySet (l : List Bool) (i : Int) (v : Bool) : Option (List Bool) :=
  (pyIdx l.length i).map fun j => l.set j v

/-- Embedding of the inner loop `for i in range(target, num - 1, -1):
dp[i] = dp[i] or dp[i - num]` of `subset_sum_dynamic`
(src/src/algorithms/subset_sum.py lines 106-108).  The loop runs `k` times
with `i` descending from `num + k - 1` to `num`; since `i - num` is the
loop countdown this reads `dp[i]`, short-circuits Python's `or`, reads
`dp[i - num]` when needed, and writes `dp[i]`. -/
def dpInner (num : Int) : Nat → List Bool → Option (List Bool)
  | 0, dp => some dp
  | k+1, dp =>
      (pyGet dp (num + k)).bind fun a =>
        (if a then some true else pyGet dp (num + (k:Int) - num)).bind fun v =>
          (pySet dp (num + k) v).bind fun dp' => dpInner num k dp'

/-- Embedding of `subset_sum_dynamic` (lines 84-110): filter out elements
above the target, allocate `[False] * (target + 1)` (empty when
`target + 1 <= 0`, exactly as Python list repetition), write `dp[0] = True`,
run the two nested loops, and read `dp[target]`.  Any Python `IndexError`
is `none`. -/
def subset_sum_dynamic (nums : List Int) (target : Int) : Option Bool := do
  let nums' := nums.filter (fun n => n ≤ target)
  let dp0 := List.replicate (target + 1).toNat false
  let dp ← pySet dp0 0 true
  let dpF ← nums'.foldlM (fun dp num => dpInner num (target - num + 1).toNat dp) dp
  pyGet dpF target

/-- Pure description of one full pass of the inner loop over a table whose
touched indices are all in range. -/
def dpApply (n : Nat) : Nat → List Bool → List Bool
  | 0, dp => dp
  | k+1, dp => dpApply n k (dp.set (n + k) (dp.getD (n + k) false || dp.getD k false))

theorem dpApply_length (n : Nat) : ∀ (k : Nat) (dp : List Bool),
    (dpApply n k dp).length = dp.length := by
  intro k
  induction k with
  | zero => intro dp; rfl
  | succ k ih => intro dp; rw [dpApply, ih, List.length_set]

theorem getD_set_self (l : List Bool) (i : Nat) (v : Bool) (hi : i < l.length) :
    (l.set i v).getD i false = v := by
  rw [List.getD_eq_getElem?_getD, List.getElem?_set, if_pos rfl, if_pos hi]
  rfl

theorem getD_set_ne (l : List Bool) {i j : Nat} (v : Bool) (h : i ≠ j) :
    (l.set i v).getD j false = l.getD j false := by
  rw [List.getD_eq_getElem?_getD, List.getElem?_set, if_neg h,
    ← List.getD_eq_getElem?_getD]

theorem getD_replicate (m j : Nat) : (List.replicate m false).getD j false = false := by
  rw [List.getD_eq_getElem?_getD, List.getElem?_replicate]
  split <;> rfl

theorem pyGet_inRange (l : List Bool) (i : Int) (h0 : 0 ≤ i) (h1 : i < (l.length : Int)) :
    pyGet l i = some (l.getD i.toNat false) := by
  have hj : i.toNat < l.length := by omega
  rw [pyGet, pyIdx, if_pos ⟨h0, h1⟩]
  show l[i.toNat]? = some (l.getD i.toNat false)
  rw [List.getElem?_eq_getElem hj, List.getD_eq_getElem?_getD,
    List.getElem?_eq_getElem hj]
  rfl

theorem pySet_inRange (l : List Bool) (i : Int) (v : Bool) (h0 : 0 ≤ i)
    (h1 : i < (l.length : Int)) :
    pySet l i v = some (l.set i.toNat v) := by
  rw [pySet, pyIdx, if_pos ⟨h0, h1⟩]
  rfl

theorem dpInner_eq_dpApply {num : Int} (hnum : 0 ≤ num) :
    ∀ (k : Nat) (dp : List Bool), num.toNat + k ≤ dp.length →
      dpInner num k dp = some (dpApply num.toNat k dp) := by
  intro k
  induction k with
  | zero => intro dp _; rfl
  | succ k ih =>
    intro dp hk
    have hi0 : (0:Int) ≤ num + k := by omega
    have hi1 : num + (k:Int) < (dp.length : Int) := by omega
    have htn : (num + (k:Int)).toNat = num.toNat + k := by omega
    have hk0 : (0:Int) ≤ num + (k:Int) - num := by omega
    have hk1 : num + (k:Int) - num < (dp.length : Int) := by omega
    have hkn : (num + (k:Int) - num).toNat = k := by omega
    have hvc : (if dp.getD (num.toNat + k) false then some true
        else some (dp.getD k false)) =
        some (dp.getD (num.toNat + k) false || dp.getD k false) := by
      cases h : dp.getD (num.toNat + k) false <;> simp [h]
    rw [dpInner]
    rw [pyGet_inRange dp _ hi0 hi1, htn, Option.some_bind,
      pyGet_inRange dp _ hk0 hk1, hkn, hvc, Option.some_bind,
      pySet_inRange dp _ _ hi0 hi1, htn, Option.some_bind,
      ih _ (by rw [List.length_set]; omega)]
    rfl

theorem dpApply_getD (n : Nat) :
    ∀ (k : Nat) (dp : List Bool), n + k ≤ dp.length → ∀ j : Nat, j < dp.length →
      (dpApply n k dp).getD j false =
        if n ≤ j ∧ j < n + k then (dp.getD j false || dp.getD (j - n) false)
        else dp.getD j false := by
  intro k
  induction k with
  | zero =>
    intro dp _ j _
    rw [dpApply, if_neg (by omega)]
  | succ k ih =>
    intro dp hk j hj
    rw [dpApply]
    rw [ih _ (by rw [List.length_set]; omega) j (by rw [List.length_set]; omega)]
    by_cases hcase : n ≤ j ∧ j < n + k
    · rw [if_pos hcase, if_pos (by omega)]
      rw [getD_set_ne dp _ (by omega), getD_set_ne dp _ (by omega)]
    · by_cases hj2 : j = n + k
      · subst hj2
        rw [if_neg (by omega), if_pos (by omega)]
        rw [getD_set_self dp _ _ (by omega)]
        congr 2
        omega
      · rw [if_neg hcase, if_neg (by omega)]
        rw [getD_set_ne dp _ (by omega)]

theorem dpFold_eq {target : Int} (ht : 0 ≤ target) :
    ∀ (l : List Int) (p : List Int) (dp : List Bool),
      (∀ x ∈ l, 0 ≤ x ∧ x ≤ target) → (∀ x ∈ p, 0 ≤ x) →
      dp.length = target.toNat + 1 →
      (∀ j : Nat, j < dp.length → dp.getD j false = canMake p (j : Int)) →
      ∃ dpF, l.foldlM (fun dp num => dpInner num (target - num + 1).toNat dp) dp = some dpF ∧
        dpF.length = target.toNat + 1 ∧
        (∀ j : Nat, j < dpF.length → dpF.getD j false = canMake (l.reverse ++ p) ((j : Nat) : Int)) := by
  intro l
  induction l with
  | nil =>
    intro p dp _ _ hlen hinv
    exact ⟨dp, rfl, hlen, by simpa [hlen] using hinv⟩
  | cons num l' ih =>
    intro p dp hl hp hlen hinv
    have hnum0 : 0 ≤ num := (hl num (by simp)).1
    have hnumt : num ≤ target := (hl num (by simp)).2
    set n := num.toNat with hn
    set k := (target - num + 1).toNat with hkdef
    have hnk : n + k = target.toNat + 1 := by omega
    have hstep := dpInner_eq_dpApply hnum0 k dp (by omega)
    set dp1 := dpApply n k dp with hdp1
    have hlen1 : dp1.length = target.toNat + 1 := by
      rw [hdp1, dpApply_length, hlen]
    have hinv1 : ∀ j : Nat, j < dp1.length → dp1.getD j false = canMake (num :: p) (j : Int) := by
      intro j hj
      have hjlt : j < dp.length := by omega
      rw [hdp1, dpApply_getD n k dp (by omega) j hjlt]
      by_cases hc : n ≤ j
      · rw [if_pos (by omega)]
        have hcast : ((j - n : Nat) : Int) = (j : Int) - num := by omega
        rw [hinv j hjlt, hinv (j - n) (by omega), hcast]
        simp only [canMake]
        rw [Bool.or_comm]
      · rw [if_neg (by omega)]
        simp only [canMake]
        rw [canMake_neg hp (t := (j : Int) - num) (by omega), Bool.false_or]
        exact hinv j hjlt
    obtain ⟨dpF, hfold, hlenF, hinvF⟩ :=
      ih (num :: p) dp1 (fun x hx => hl x (by simp [hx]))
        (fun x hx => by
          rcases List.mem_cons.mp hx with h | h
          · subst h; exact hnum0
          · exact hp x h)
        hlen1 hinv1
    refine ⟨dpF, ?_, hlenF, ?_⟩
    · rw [List.foldlM_cons, hstep]
      exact hfold
    · intro j hj
      rw [hinvF j hj]
      congr 1
      simp [List.reverse_cons, List.append_assoc]

theorem subset_sum_dynamic_eq_canMake {nums : List Int} (hn : ∀ x ∈ nums, 0 ≤ x)
    {target : Int} (ht : 0 ≤ target) :
    subset_sum_dynamic nums target = some (canMake nums target) := by
  have hL : (List.replicate (target + 1).toNat false).length = target.toNat + 1 := by
    rw [List.length_replicate]; omega
  have hset : pySet (List.replicate (target + 1).toNat false) 0 true =
      some ((List.replicate (target + 1).toNat false).set 0 true) := by
    rw [pySet_inRange _ _ _ le_rfl (by omega)]
    rfl
  set dp1 := (List.replicate (target + 1).toNat false).set 0 true with hdp1
  have hlen1 : dp1.length = target.toNat + 1 := by
    rw [hdp1, List.length_set, hL]
  have hinv1 : ∀ j : Nat, j < dp1.length → dp1.getD j false = canMake [] (j : Int) := by
    intro j hj
    rcases Nat.eq_zero_or_pos j with h | h
    · subst h
      rw [hdp1, getD_set_self _ _ _ (by omega)]
      simp [canMake]
    · rw [hdp1, getD_set_ne _ true (show 0 ≠ j by omega), getD_replicate]
      symm
      simp only [canMake, decide_eq_false_iff_not]
      omega
  have hfilter : ∀ x ∈ nums.filter (fun n => n ≤ target), 0 ≤ x ∧ x ≤ target := by
    intro x hx
    have h1 := List.mem_filter.mp hx
    exact ⟨hn x h1.1, by simpa using h1.2⟩
  obtain ⟨dpF, hfold, hlenF, hinvF⟩ :=
    dpFold_eq ht (nums.filter (fun n => n ≤ target)) [] dp1 hfilter (by simp) hlen1 hinv1
  have hget : pyGet dpF target = some (canMake nums target) := by
    rw [pyGet_inRange dpF target ht (by omega)]
    rw [hinvF target.toNat (by omega)]
    rw [Int.toNat_of_nonneg ht]
    congr 1
    rw [List.append_nil]
    rw [canMake_perm (List.reverse_perm _) target]
    exact canMake_filter hn target target le_rfl
  rw [subset_sum_dynamic, hset]
  show (List.foldlM (fun dp num => dpInner num (target - num + 1).toNat dp) dp1
      (nums.filter (fun n => n ≤ target))).bind (fun dpF => pyGet dpF target) =
    some (canMake nums target)
  rw [hfold]
  exact hget

/- ====================================================================
   src/src/utils/graph_utils.py : create_hard_subset_sum_instance
   ==================================================================== -/

/-- Embedding of `create_hard_subset_sum_instance`
(src/src/utils/graph_utils.py lines 43-65): take the primes not exceeding
`size * 5`, keep the first `size` of them, and pair them with the
impossible target `sum + 1`. -/
def create_hard_subset_sum_instance (size : Nat) : List Int × Int :=
  let primes : List Int := [2, 3, 5, 7, 11, 13, 17, 19, 23, 29, 31, 37, 41, 43, 47, 53,
    59, 61, 67, 71, 73, 79, 83, 89, 97, 101, 103, 107, 109, 113,
    127, 131, 137, 139, 149, 151, 157, 163, 167, 173, 179, 181,
    191, 193, 197, 199, 211, 223]
  let nums := (primes.filter (fun p => p ≤ (size : Int) * 5)).take size
  (nums, nums.sum + 1)

/- ====================================================================
   Claim theorems about the subset-sum algorithms
   ==================================================================== -/

/-- C1 counterexample: at nums = [-1, 5], target = 4 the pruned
backtracking variant answers false while the exhaustive variant answers
true (the filter `n <= target` drops the 5 that is needed together with
the -1), so the three variants do not agree on every fixed
(nums, target) pair. -/
theorem subset_sum_variants_disagree_cex :
    subset_sum_backtracking [-1, 5] 4 = false ∧
    subset_sum_exhaustive [-1, 5] 4 = true := by decide

/-- C1 (amended): for every list of nonnegative integers and every
nonnegative target, the three subset-sum variants return the same boolean
outcome (the dynamic-programming variant returning it without raising). -/
theorem subset_sum_variants_agree (nums : List Int) (target : Int)
    (hn : ∀ x ∈ nums, 0 ≤ x) (ht : 0 ≤ target) :
    subset_sum_backtracking nums target = subset_sum_exhaustive nums target ∧
    subset_sum_dynamic nums target = some (subset_sum_exhaustive nums target) := by
  rw [subset_sum_exhaustive_eq_canMake, subset_sum_backtracking_eq_canMake hn,
    subset_sum_dynamic_eq_canMake hn ht]
  exact ⟨rfl, rfl⟩

/-- C1 witness: the spec's two concrete examples, nums = [3,34,4,12,5,2]
with target 9 (all three true) and target 35 (all three false). -/
theorem subset_sum_variants_agree_witness :
    ((subset_sum_backtracking [3, 34, 4, 12, 5, 2] 9 =
        subset_sum_exhaustive [3, 34, 4, 12, 5, 2] 9 ∧
      subset_sum_dynamic [3, 34, 4, 12, 5, 2] 9 =
        some (subset_sum_exhaustive [3, 34, 4, 12, 5, 2] 9)) ∧
      subset_sum_exhaustive [3, 34, 4, 12, 5, 2] 9 = true) ∧
    ((subset_sum_backtracking [3, 34, 4, 12, 5, 2] 35 =
        subset_sum_exhaustive [3, 34, 4, 12, 5, 2] 35 ∧
      subset_sum_dynamic [3, 34, 4, 12, 5, 2] 35 =
        some (subset_sum_exhaustive [3, 34, 4, 12, 5, 2] 35)) ∧
      subset_sum_exhaustive [3, 34, 4, 12, 5, 2] 35 = false) :=
  ⟨⟨subset_sum_variants_agree _ _ (by decide) (by decide), by decide⟩,
   ⟨subset_sum_variants_agree _ _ (by decide) (by decide), by decide⟩⟩

/-- C9: `subset_sum_dynamic` is total only for `target ≥ 0`: for every
`nums` and every negative target the DP table `[False] * (target + 1)` is
empty, so the write `dp[0] = True` raises IndexError (embedded as `none`),
while the backtracking and exhaustive variants are total boolean-valued
functions on all integer inputs (their embeddings return a `Bool`
unconditionally). -/
theorem subset_sum_dynamic_negative_target (nums : List Int) (target : Int)
    (h : target < 0) :
    subset_sum_dynamic nums target = none ∧
    (∃ b : Bool, subset_sum_backtracking nums target = b) ∧
    (∃ b : Bool, subset_sum_exhaustive nums target = b) := by
  refine ⟨?_, ⟨_, rfl⟩, ⟨_, rfl⟩⟩
  rw [subset_sum_dynamic]
  have h1 : (target + 1).toNat = 0 := by omega
  rw [h1]
  rfl

/-- C9 witness: nums = [1, 2] and target = -1. -/
theorem subset_sum_dynamic_negative_target_witness :
    subset_sum_dynamic [1, 2] (-1) = none ∧
    (∃ b : Bool, subset_sum_backtracking [1, 2] (-1) = b) ∧
    (∃ b : Bool, subset_sum_exhaustive [1, 2] (-1) = b) :=
  subset_sum_dynamic_negative_target [1, 2] (-1) (by decide)

/-- C10: for every positive size, `create_hard_subset_sum_instance`
returns positive integers with target = sum + 1; no sub-multiset of the
returned numbers sums to the target, and all three subset-sum algorithms
answer false on the instance. -/
theorem create_hard_instance_unsolvable (size : Nat) (_h : 0 < size) :
    (∀ x ∈ (create_hard_subset_sum_instance size).1, 0 < x) ∧
    (create_hard_subset_sum_instance size).2 =
      (create_hard_subset_sum_instance size).1.sum + 1 ∧
    (∀ s, List.Subperm s (create_hard_subset_sum_instance size).1 →
      List.sum s ≠ (create_hard_subset_sum_instance size).2) ∧
    subset_sum_exhaustive (create_hard_subset_sum_instance size).1
      (create_hard_subset_sum_instance size).2 = false ∧
    subset_sum_backtracking (create_hard_subset_sum_instance size).1
      (create_hard_subset_sum_instance size).2 = false ∧
    subset_sum_dynamic (create_hard_subset_sum_instance size).1
      (create_hard_subset_sum_instance size).2 = some false := by
  have hpos : ∀ x ∈ (create_hard_subset_sum_instance size).1, 0 < x := by
    intro x hx
    simp only [create_hard_subset_sum_instance] at hx
    have h1 := (List.take_sublist _ _).subset hx
    have h2 := (List.mem_filter.mp h1).1
    have hall : ∀ y ∈ ([2, 3, 5, 7, 11, 13, 17, 19, 23, 29, 31, 37, 41, 43, 47, 53,
        59, 61, 67, 71, 73, 79, 83, 89, 97, 101, 103, 107, 109, 113,
        127, 131, 137, 139, 149, 151, 157, 163, 167, 173, 179, 181,
        191, 193, 197, 199, 211, 223] : List Int), 0 < y := by decide
    exact hall x h2
  have hnn : ∀ x ∈ (create_hard_subset_sum_instance size).1, 0 ≤ x :=
    fun x hx => le_of_lt (hpos x hx)
  have hsum0 : 0 ≤ (create_hard_subset_sum_instance size).1.sum :=
    List.sum_nonneg hnn
  have htarget : (create_hard_subset_sum_instance size).2 =
      (create_hard_subset_sum_instance size).1.sum + 1 := rfl
  refine ⟨hpos, htarget, ?_, ?_, ?_, ?_⟩
  · intro s hs
    obtain ⟨t, hperm, hsub⟩ := hs
    have h1 : t.sum ≤ (create_hard_subset_sum_instance size).1.sum :=
      List.Sublist.sum_le_sum hsub hnn
    have h2 : t.sum = s.sum := hperm.sum_eq
    rw [htarget]
    omega
  · rw [subset_sum_exhaustive_eq_canMake, htarget]
    exact canMake_gt_sum hnn (by omega)
  · rw [subset_sum_backtracking_eq_canMake hnn, htarget]
    exact canMake_gt_sum hnn (by omega)
  · rw [subset_sum_dynamic_eq_canMake hnn (by rw [htarget]; omega), htarget]
    rw [canMake_gt_sum hnn (by omega)]

/-- C10 witness: size = 3 gives nums = [2, 3, 5] and target = 11. -/
theorem create_hard_instance_unsolvable_witness :
    (∀ x ∈ (create_hard_subset_sum_instance 3).1, 0 < x) ∧
    (create_hard_subset_sum_instance 3).2 =
      (create_hard_subset_sum_instance 3).1.sum + 1 ∧
    (∀ s, List.Subperm s (create_hard_subset_sum_instance 3).1 →
      List.sum s ≠ (create_hard_subset_sum_instance 3).2) ∧
    subset_sum_exhaustive (create_hard_subset_sum_instance 3).1
      (create_hard_subset_sum_instance 3).2 = false ∧
    subset_sum_backtracking (create_hard_subset_sum_instance 3).1
      (create_hard_subset_sum_instance 3).2 = false ∧
    subset_sum_dynamic (create_hard_subset_sum_instance 3).1
      (create_hard_subset_sum_instance 3).2 = some false :=
  create_hard_instance_unsolvable 3 (by decide)

/- ====================================================================
   src/src/benchmarks/subset_sum_benchmark.py : trial loops
   ==================================================================== -/

/-- Embedding of the per-size trial loop shared by `benchmark_backtracking`
(src/src/benchmarks/subset_sum_benchmark.py lines 100-109) and
`benchmark_worst_case` (lines 247-256): the duration oracle `d` gives each
trial's measured wall-clock duration (a runtime input), each duration is
added to the running total, and after accumulating, a duration above the
limit breaks the loop.  Returns the final `(total_time, trial)` pair,
`trial` being the Python loop variable's last value. -/
def runSizeAux (d : Nat → ℚ) (limit : ℚ) : List Nat → ℚ → Nat → ℚ × Nat
  | [], total, tv => (total, tv)
  | t :: rest, total, _ =>
      let x := d t
      let total' := total + x
      if limit < x then (total', t) else runSizeAux d limit rest total' t

/-- The trial loop `for trial in range(k)` together with the read of the
loop variable after the loop; `none` models the Python NameError raised
by `total_time / (trial + 1)` when the loop never ran (`k = 0`). -/
def runSize (d : Nat → ℚ) (limit : ℚ) (k : Nat) : Option (ℚ × Nat) :=
  if k = 0 then none else some (runSizeAux d limit (List.range k) 0 0)

/-- The durations the loop actually measures, in order: every trial up to
and including the first one whose duration exceeds the limit. -/
def executedTrials (d : Nat → ℚ) (limit : ℚ) : List Nat → List ℚ
  | [] => []
  | t :: rest =>
      let x := d t
      if limit < x then [x] else x :: executedTrials d limit rest

/-- Trial-count policy of `benchmark_backtracking` (lines 92-98). -/
def btTrialsFor (numTrials size : Nat) : Nat :=
  if 32 ≤ size then min 2 numTrials
  else if 30 ≤ size then min 3 numTrials
  else numTrials

/-- Per-size iteration of `benchmark_backtracking` (lines 74-113): run the
trial loop with the 300 s ceiling and append `total_time / (trial + 1)` to
the collected times. -/
def btGo (d : Nat → Nat → ℚ) (numTrials : Nat) : List Nat → List ℚ → Option (List ℚ)
  | [], acc => some acc
  | s :: rest, acc =>
      (runSize (d s) 300 (btTrialsFor numTrials s)).bind fun r =>
        btGo d numTrials rest (acc ++ [r.1 / ((r.2 : ℚ) + 1)])

/-- Embedding of `benchmark_backtracking` (lines 51-115): the requested
sizes are returned unchanged, paired with the per-size averages.  The
oracle `d size trial` stands for the measured duration of that trial. -/
def benchmark_backtracking (d : Nat → Nat → ℚ) (sizes : List Nat) (numTrials : Nat) :
    Option (List Nat × List ℚ) :=
  (btGo d numTrials sizes []).map fun times => (sizes, times)

/-- Every trial duration executed across a whole `benchmark_backtracking`
run. -/
def btExecutedAll (d : Nat → Nat → ℚ) (numTrials : Nat) (sizes : List Nat) : List ℚ :=
  sizes.flatMap fun s => executedTrials (d s) 300 (List.range (btTrialsFor numTrials s))

/-- Trial-count policy of `benchmark_worst_case` (lines 239-243). -/
def wcTrialsFor (numTrials size : Nat) : Nat :=
  if 24 ≤ size then 1 else numTrials

/-- Per-size iteration of `benchmark_worst_case` (lines 230-266),
including the series-level stop once an average exceeds 900 s. -/
def wcGo (d : Nat → Nat → ℚ) (numTrials : Nat) :
    List Nat → List (Nat × ℚ) → Option (List (Nat × ℚ))
  | [], acc => some acc
  | s :: rest, acc =>
      (runSize (d s) 600 (wcTrialsFor numTrials s)).bind fun r =>
        let avg := r.1 / ((r.2 : ℚ) + 1)
        let acc' := acc ++ [(s, avg)]
        if 900 < avg then some acc' else wcGo d numTrials rest acc'

/-- Embedding of `benchmark_worst_case` (lines 206-269): the final
`actual_sizes, times = zip(*results)` unpacking raises ValueError on an
empty results list (`none`). -/
def benchmark_worst_case (d : Nat → Nat → ℚ) (sizes : List Nat) (numTrials : Nat) :
    Option (List Nat × List ℚ) :=
  (wcGo d numTrials sizes []).bind fun results =>
    if results = [] then none
    else some (results.map Prod.fst, results.map Prod.snd)

/-- Outcome of one timed trial of the dynamic-programming benchmark:
either a measured duration or a MemoryError raised by the subject call. -/
inductive TrialOutcome
  | ok (duration : ℚ)
  | memErr

/-- Trial-count policy of `benchmark_dynamic_programming` (lines 166-172). -/
def dpTrialsFor (numTrials size : Nat) : Nat :=
  if 1000 ≤ size then 1 else if 500 ≤ size then min 2 numTrials else numTrials

/-- One size's trial loop of `benchmark_dynamic_programming`
(lines 174-191): ok durations accumulate and a duration above 300 s breaks
the loop; a MemoryError breaks the loop, additionally marking the size as
skipped (`total_time = nan`) when it happened on the very first trial.
Returns `(total_time, trial, nan-flag)`. -/
def dpRunAux (r : Nat → TrialOutcome) : List Nat → ℚ → Nat → ℚ × Nat × Bool
  | [], total, tv => (total, tv, false)
  | t :: rest, total, _ =>
      match r t with
      | .ok x =>
          let total' := total + x
          if (300:ℚ) < x then (total', t, false) else dpRunAux r rest total' t
      | .memErr => if t = 0 then (total, t, true) else (total, t, false)

/-- The dynamic-programming trial loop over `range(k)`; `none` models the
NameError from `trial` being unbound when `k = 0`. -/
def dpRunSize (r : Nat → TrialOutcome) (k : Nat) : Option (ℚ × Nat × Bool) :=
  if k = 0 then none else some (dpRunAux r (List.range k) 0 0)

/-- Per-size iteration of `benchmark_dynamic_programming` (lines 141-199):
sizes whose loop ended nan-marked contribute no average, the rest append
`total_time / (trial + 1)`. -/
def dpGo (r : Nat → Nat → TrialOutcome) (numTrials : Nat) :
    List Nat → List ℚ → Option (List ℚ)
  | [], acc => some acc
  | s :: rest, acc =>
      (dpRunSize (r s) (dpTrialsFor numTrials s)).bind fun q =>
        dpGo r numTrials rest
          (if q.2.2 then acc else acc ++ [q.1 / ((q.2.1 : ℚ) + 1)])

/-- Embedding of `benchmark_dynamic_programming` (lines 118-203): collect
the per-size averages and return `sizes[:len(times)]` paired with them
(the source's attempt to drop skipped sizes). -/
def benchmark_dynamic_programming (r : Nat → Nat → TrialOutcome) (sizes : List Nat)
    (numTrials : Nat) : Option (List Nat × List ℚ) :=
  (dpGo r numTrials sizes []).map fun times => (sizes.take times.length, times)

/-- The durations of the trials that actually completed at one size of the
dynamic-programming benchmark (a MemoryError trial completes nothing). -/
def dpCompleted (r : Nat → TrialOutcome) : List Nat → List ℚ
  | [] => []
  | t :: rest =>
      match r t with
      | .ok x => if (300:ℚ) < x then [x] else x :: dpCompleted r rest
      | .memErr => []

/- Relating the trial loop to the executed-trial list. -/

theorem runSizeAux_spec (d : Nat → ℚ) (limit : ℚ) :
    ∀ (n s : Nat) (total : ℚ) (j : Nat),
      runSizeAux d limit (List.range' s (n+1)) total j =
        (total + (executedTrials d limit (List.range' s (n+1))).sum,
          s + (executedTrials d limit (List.range' s (n+1))).length - 1) := by
  intro n
  induction n with
  | zero =>
    intro s total j
    by_cases h : limit < d s <;>
      simp [List.range'_succ, List.range', runSizeAux, executedTrials, h]
  | succ n ih =>
    intro s total j
    rw [List.range'_succ]
    by_cases h : limit < d s
    · simp [runSizeAux, executedTrials, h]
    · have hunfold : runSizeAux d limit (s :: List.range' (s+1) (n+1)) total j =
          runSizeAux d limit (List.range' (s+1) (n+1)) (total + d s) s := by
        simp only [runSizeAux]
        rw [if_neg h]
      rw [hunfold, ih (s+1) (total + d s) s]
      simp only [executedTrials, if_neg h, List.sum_cons, List.length_cons]
      rw [Prod.mk.injEq]
      constructor
      · ring
      · omega

theorem runSize_spec (d : Nat → ℚ) (limit : ℚ) (k : Nat) (total : ℚ) (tv : Nat)
    (h : runSize d limit k = some (total, tv)) :
    total = (executedTrials d limit (List.range k)).sum ∧
    tv + 1 = (executedTrials d limit (List.range k)).length := by
  rcases k with _ | n
  · simp [runSize] at h
  · rw [runSize, if_neg (Nat.succ_ne_zero n)] at h
    have h2 := Option.some.inj h
    rw [List.range_eq_range'] at h2 ⊢
    rw [runSizeAux_spec d limit n 0 0 0, Prod.mk.injEq] at h2
    obtain ⟨he1, he2⟩ := h2
    have hne : executedTrials d limit (List.range' 0 (n+1)) ≠ [] := by
      rw [List.range'_succ]
      simp only [executedTrials]
      split <;> simp
    have hlen : 1 ≤ (executedTrials d limit (List.range' 0 (n+1))).length :=
      List.length_pos.mpr hne
    exact ⟨he1.symm.trans (zero_add _), by omega⟩

theorem executedTrials_dropLast_le (d : Nat → ℚ) (limit : ℚ) :
    ∀ l, ∀ x ∈ (executedTrials d limit l).dropLast, x ≤ limit := by
  intro l
  induction l with
  | nil => simp [executedTrials]
  | cons t rest ih =>
    simp only [executedTrials]
    by_cases h : limit < d t
    · rw [if_pos h]
      simp
    · rw [if_neg h]
      cases hex : executedTrials d limit rest with
      | nil => simp
      | cons a as =>
        rw [List.dropLast_cons_of_ne_nil (by simp)]
        intro x hx
        rcases List.mem_cons.mp hx with h1 | h1
        · subst h1; exact le_of_not_lt h
        · rw [hex] at ih
          exact ih x h1

theorem btGo_spec (d : Nat → Nat → ℚ) (numTrials : Nat) :
    ∀ (sizes : List Nat) (acc ts : List ℚ),
      btGo d numTrials sizes acc = some ts →
      ts = acc ++ sizes.map (fun s =>
        (executedTrials (d s) 300 (List.range (btTrialsFor numTrials s))).sum /
          ((executedTrials (d s) 300 (List.range (btTrialsFor numTrials s))).length : ℚ)) := by
  intro sizes
  induction sizes with
  | nil =>
    intro acc ts h
    simp only [btGo, Option.some.injEq] at h
    simp [← h]
  | cons s rest ih =>
    intro acc ts h
    simp only [btGo] at h
    cases hrs : runSize (d s) 300 (btTrialsFor numTrials s) with
    | none => rw [hrs] at h; simp at h
    | some r =>
      rw [hrs] at h
      rw [Option.some_bind] at h
      obtain ⟨htotal, hlen⟩ := runSize_spec _ _ _ r.1 r.2 hrs
      have havg : r.1 / ((r.2 : ℚ) + 1) =
          (executedTrials (d s) 300 (List.range (btTrialsFor numTrials s))).sum /
            ((executedTrials (d s) 300 (List.range (btTrialsFor numTrials s))).length : ℚ) := by
        rw [htotal]
        congr 1
        rw [← hlen]
        push_cast
        ring
      rw [ih _ _ h, havg]
      simp

/-- C2 (amended): every per-size average emitted by
`benchmark_backtracking` is the sum of the executed trials' durations
divided by their count, and among the executed trials at a size every one
except the final one is within the 300 s per-trial ceiling; the final,
cutoff-triggering trial is itself included in the average (contrary to the
original claim that no averaged trial exceeds the ceiling). -/
theorem benchmark_per_trial_cutoff (d : Nat → Nat → ℚ) (numTrials : Nat)
    (sizes : List Nat) (times : List ℚ)
    (h : benchmark_backtracking d sizes numTrials = some (sizes, times)) :
    times = sizes.map (fun s =>
      (executedTrials (d s) 300 (List.range (btTrialsFor numTrials s))).sum /
        ((executedTrials (d s) 300 (List.range (btTrialsFor numTrials s))).length : ℚ)) ∧
    ∀ s ∈ sizes, ∀ x ∈ (executedTrials (d s) 300
        (List.range (btTrialsFor numTrials s))).dropLast, x ≤ 300 := by
  constructor
  · rw [benchmark_backtracking] at h
    cases hgo : btGo d numTrials sizes [] with
    | none => rw [hgo] at h; simp at h
    | some ts =>
      rw [hgo] at h
      simp only [Option.map_some', Option.some.injEq, Prod.mk.injEq] at h
      rw [← h.2]
      simpa using btGo_spec d numTrials sizes [] ts hgo
  · intro s _
    exact executedTrials_dropLast_le (d s) 300 _

/-- C2 counterexample: with a 400 s first trial under the 300 s ceiling
the emitted SizeSample's average is 400 — it is computed from a trial set
containing a trial whose duration exceeded the ceiling. -/
theorem benchmark_per_trial_cutoff_cex :
    benchmark_backtracking (fun _ _ => 400) [10] 2 = some ([10], [400]) ∧
    (400:ℚ) ∈ executedTrials (fun _ => 400) 300 (List.range (btTrialsFor 2 10)) ∧
    (300:ℚ) < 400 := by
  refine ⟨?_, ?_, by norm_num⟩
  · norm_num [benchmark_backtracking, btGo, runSize, runSizeAux, btTrialsFor,
      List.range_succ]
  · norm_num [executedTrials, btTrialsFor, List.range_succ]

/-- C2 witness: the amended statement instantiated at one size with a
single 400 s trial. -/
theorem benchmark_per_trial_cutoff_witness :
    ([400] : List ℚ) = [10].map (fun s =>
      (executedTrials (fun _ => (400:ℚ)) 300 (List.range (btTrialsFor 2 s))).sum /
        ((executedTrials (fun _ => (400:ℚ)) 300 (List.range (btTrialsFor 2 s))).length : ℚ)) ∧
    ∀ s ∈ [10], ∀ x ∈ (executedTrials (fun _ => (400:ℚ)) 300
        (List.range (btTrialsFor 2 s))).dropLast, x ≤ 300 :=
  benchmark_per_trial_cutoff (fun _ _ => 400) 2 [10] [400]
    (by norm_num [benchmark_backtracking, btGo, runSize, runSizeAux, btTrialsFor,
      List.range_succ])

/-- C3: the divisor bug of `benchmark_dynamic_programming`: at a size
whose first trial completes in 1 s and whose second trial raises
MemoryError, exactly one trial completed (completed durations [1], so the
average over completed trials is 1/1 = 1), yet the emitted average is
1/2 — the divisor `trial + 1` also counts the failed trial, exceeding the
completed-trial count. -/
theorem dp_average_divisor_bug :
    benchmark_dynamic_programming
      (fun _ t => if t = 0 then TrialOutcome.ok 1 else TrialOutcome.memErr) [5] 2 =
      some ([5], [1/2]) ∧
    dpCompleted (fun t => if t = 0 then TrialOutcome.ok 1 else TrialOutcome.memErr)
      (List.range (dpTrialsFor 2 5)) = [1] ∧
    ((1:ℚ)/2) ≠ ((1:ℚ)/1) := by
  refine ⟨?_, ?_, by norm_num⟩
  · norm_num [benchmark_dynamic_programming, dpGo, dpRunSize, dpRunAux, dpTrialsFor,
      List.range_succ]
  · norm_num [dpCompleted, dpTrialsFor, List.range_succ]

/-- C4: the size-mislabeling bug of `benchmark_dynamic_programming`: with
sizes [5, 10, 20], one trial per size, durations 1 s at size 5 and 3 s at
size 20, and a first-trial MemoryError at size 10, the function returns
([5, 10], [1, 3]): `sizes[:len(times)]` pairs size 20's average 3 with the
skipped size 10 and drops size 20 from the series, so later samples do not
correspond to their own requested sizes. -/
theorem dp_size_mislabeling_bug :
    benchmark_dynamic_programming
      (fun s _ => if s = 10 then TrialOutcome.memErr
        else if s = 5 then TrialOutcome.ok 1 else TrialOutcome.ok 3)
      [5, 10, 20] 1 = some ([5, 10], [1, 3]) := by
  norm_num [benchmark_dynamic_programming, dpGo, dpRunSize, dpRunAux, dpTrialsFor,
    List.range_succ]

/-- C7 counterexample: `benchmark_backtracking` does not fail fast on an
empty requested-size list — it returns the empty series normally instead
of raising a usage error. -/
theorem benchmark_empty_sizes_cex :
    benchmark_backtracking (fun _ _ => 1) [] 10 = some ([], []) := rfl

/-- C7 (amended): an empty requested-size list is not rejected up front,
and no trial is ever invoked for it: `benchmark_backtracking` returns the
empty series without raising, while `benchmark_worst_case` raises only at
the final `zip(*results)` unpacking after its (empty) size loop ran no
trial. -/
theorem benchmark_empty_sizes (d : Nat → Nat → ℚ) (numTrials : Nat) :
    benchmark_backtracking d [] numTrials = some ([], []) ∧
    btExecutedAll d numTrials [] = [] ∧
    benchmark_worst_case d [] numTrials = none :=
  ⟨rfl, rfl, rfl⟩

/- ====================================================================
   src/src/utils/timer.py : time_function
   ==================================================================== -/

/-- Embedding of `time_function` (src/src/utils/timer.py lines 12-28).
The two `time.time()` readings are the runtime inputs `t0` (before the
call) and `t1` (after): the subject is applied exactly once and its
result returned unchanged alongside `t1 - t0`.  `time.time()` reads the
adjustable system wall clock, so no ordering relation between `t0` and
`t1` is assumed by the embedding. -/
def time_function {α β : Type} (t0 t1 : ℚ) (f : α → β) (x : α) : β × ℚ :=
  (f x, t1 - t0)

/-- C8 counterexample: if the system clock is stepped backwards between
the two readings (reading 5 before the call, 3 after — possible for
`time.time()`, which is not a monotonic clock), the recorded duration is
-2, a negative value, refuting the claimed monotonic-clock semantics. -/
theorem time_function_negative_duration_cex :
    (time_function 5 3 (fun n : Int => n + 1) 0).2 = -2 ∧ ((-2:ℚ) < 0) := by
  constructor
  · norm_num [time_function]
  · norm_num

/-- C8 (amended): `time_function` applies the subject exactly once,
returns that call's result unchanged, and records as duration the
difference of the two wall-clock readings; the duration is non-negative
whenever the second reading is not earlier than the first, which
`time.time()` (unlike a monotonic clock) does not guarantee. -/
theorem time_function_spec {α β : Type} (t0 t1 : ℚ) (f : α → β) (x : α) :
    time_function t0 t1 f x = (f x, t1 - t0) ∧
    (t0 ≤ t1 → 0 ≤ (time_function t0 t1 f x).2) := by
  refine ⟨rfl, fun h => ?_⟩
  simp only [time_function]
  linarith

/-- C8 witness: readings 1 then 3 around a call of the integer successor
function at 4. -/
theorem time_function_spec_witness :
    (time_function 1 3 (fun n : Int => n + 1) 4 = ((fun n : Int => n + 1) 4, 3 - 1) ∧
      ((1:ℚ) ≤ 3 → 0 ≤ (time_function 1 3 (fun n : Int => n + 1) 4).2)) ∧
    (1:ℚ) ≤ 3 ∧ 0 ≤ (time_function 1 3 (fun n : Int => n + 1) 4).2 :=
  ⟨time_function_spec 1 3 (fun n : Int => n + 1) 4, by norm_num,
    (time_function_spec 1 3 (fun n : Int => n + 1) 4).2 (by norm_num)⟩

/- ====================================================================
   src/src/benchmarks/compare_algorithms.py : calculate_growth_rate
   ==================================================================== -/

/-- Ordinary-least-squares slope of a degree-1 polynomial fit: the closed
form computed by `np.polyfit(x, y, 1)[0]` (numpy is an external library;
this is the textbook least-squares slope it implements, over ℚ). -/
def polyfitSlope (pts : List (ℚ × ℚ)) : ℚ :=
  let n : ℚ := pts.length
  let sx := (pts.map Prod.fst).sum
  let sy := (pts.map Prod.snd).sum
  let sxy := (pts.map fun p => p.1 * p.2).sum
  let sxx := (pts.map fun p => p.1 * p.1).sum
  (n * sxy - sx * sy) / (n * sxx - sx * sx)

/-- Embedding of the growth-rate fit shared by `calculate_growth_rate` in
src/src/benchmarks/compare_algorithms.py (lines 48-58) and the trend-line
block of `plot_execution_times` in src/src/utils/plotting.py
(lines 44-55): with more than 2 samples, keep the samples whose
log-transformed duration is finite (`np.log` on a float is finite exactly
for positive arguments, so the validity mask is `0 < time`), and with more
than 1 survivor fit a degree-1 polynomial to the (ln size, ln time) pairs
and report its slope; otherwise report "N/A" (`none`).  The logarithm
itself is the float library function, abstracted as the parameter `lg`. -/
def calculate_growth_rate (lg : ℚ → ℚ) (sizes times : List ℚ) : Option ℚ :=
  if 2 < sizes.length then
    let pairs := (sizes.zip times).filter fun p => 0 < p.2
    if 1 < pairs.length then
      some (polyfitSlope (pairs.map fun p => (lg p.1, lg p.2)))
    else none
  else none

/-- C6: the growth-rate estimator reports "N/A" exactly when the series
has fewer than 3 samples or fewer than 2 samples survive the finite-log
filter; otherwise it reports the slope of the degree-1 fit to the
(ln size, ln duration) pairs of the surviving samples. -/
theorem calculate_growth_rate_spec (lg : ℚ → ℚ) (sizes times : List ℚ) :
    (calculate_growth_rate lg sizes times = none ↔
      sizes.length < 3 ∨
        ((sizes.zip times).filter fun p => 0 < p.2).length < 2) ∧
    (3 ≤ sizes.length →
      2 ≤ ((sizes.zip times).filter fun p => 0 < p.2).length →
      calculate_growth_rate lg sizes times =
        some (polyfitSlope (((sizes.zip times).filter fun p => 0 < p.2).map
          fun p => (lg p.1, lg p.2)))) := by
  constructor
  · simp only [calculate_growth_rate]
    split
    · split
      · simp
        omega
      · simp
        omega
    · simp
      omega
  · intro h1 h2
    simp only [calculate_growth_rate]
    rw [if_pos (by omega), if_pos (by omega)]

/-- C6 witness: a three-sample series with positive durations gets a fit;
a two-sample series reports "N/A". -/
theorem calculate_growth_rate_spec_witness :
    (3 ≤ ([1, 2, 4] : List ℚ).length →
      2 ≤ ((([1, 2, 4] : List ℚ).zip ([1, 2, 3] : List ℚ)).filter
        fun p => 0 < p.2).length →
      calculate_growth_rate id [1, 2, 4] [1, 2, 3] =
        some (polyfitSlope (((([1, 2, 4] : List ℚ).zip ([1, 2, 3] : List ℚ)).filter
          fun p => 0 < p.2).map fun p => (id p.1, id p.2)))) ∧
    calculate_growth_rate id [1, 2] [1, 2] = none :=
  ⟨(calculate_growth_rate_spec id [1, 2, 4] [1, 2, 3]).2, rfl⟩

/- ====================================================================
   src/src/algorithms/shortest_path.py : dijkstra_shortest_path
   ==================================================================== -/

/-- Distance values: floats with the `float('infinity')` sentinel,
embedded as `WithTop Int` (the generator's weights are integers). -/
abbrev DistVal := WithTop Int

/-- Python dict lookup `m[k]` on an association list (insertion order);
`none` is a KeyError. -/
def alookup {β : Type} (k : Nat) : List (Nat × β) → Option β
  | [] => none
  | p :: rest => if p.1 = k then some p.2 else alookup k rest

/-- Python dict assignment `m[k] = v`: update in place when the key is
present, append otherwise. -/
def dictSet (m : List (Nat × DistVal)) (k : Nat) (v : DistVal) : List (Nat × DistVal) :=
  if (alookup k m).isSome then m.map (fun p => if p.1 = k then (p.1, v) else p)
  else m ++ [(k, v)]

/-- The lexicographic order on (distance, vertex) pairs under which
`heapq.heappop` returns the least queue element. -/
def pqLe (a b : DistVal × Nat) : Bool :=
  decide (a.1 < b.1) || (decide (a.1 = b.1) && decide (a.2 ≤ b.2))

/-- The element `heapq.heappop` returns: the least entry of the queue. -/
def pqMin : List (DistVal × Nat) → Option (DistVal × Nat)
  | [] => none
  | x :: xs =>
      match pqMin xs with
      | none => some x
      | some m => some (if pqLe x m then x else m)

/-- Embedding of the neighbor loop of `dijkstra_shortest_path`
(src/src/algorithms/shortest_path.py lines 49-55): for each (neighbor,
weight) edge, read `distances[neighbor]` (KeyError is `none`), and on a
strict improvement write the new distance and push it onto the queue. -/
def relaxEdges (d : DistVal) : List (Nat × Int) → List (Nat × DistVal) → List (DistVal × Nat) →
    Option (List (Nat × DistVal) × List (DistVal × Nat))
  | [], dist, q => some (dist, q)
  | (v, w) :: rest, dist, q =>
      (alookup v dist).bind fun dv =>
        let distance := d + ((w : Int) : DistVal)
        if distance < dv then
          relaxEdges d rest (dictSet dist v distance) (q ++ [(distance, v)])
        else relaxEdges d rest dist q

/-- Embedding of the `while priority_queue:` loop (lines 41-55): pop the
least entry, skip it when stale (`current_distance > distances[current]`),
otherwise relax the popped vertex's edges.  `fuel` bounds the number of
iterations, since the source loop need not terminate on arbitrary
(negative-weight) graphs; exhausted fuel with a nonempty queue is `none`. -/
def dijkstraLoop (g : List (Nat × List (Nat × Int))) :
    Nat → List (DistVal × Nat) → List (Nat × DistVal) → Option (List (Nat × DistVal))
  | 0, q, dist =>
      match pqMin q with
      | none => some dist
      | some _ => none
  | fuel + 1, q, dist =>
      match pqMin q with
      | none => some dist
      | some du =>
          (alookup du.2 dist).bind fun dcur =>
            if dcur < du.1 then dijkstraLoop g fuel (q.erase du) dist
            else (alookup du.2 g).bind fun es =>
              (relaxEdges du.1 es dist (q.erase du)).bind fun r =>
                dijkstraLoop g fuel r.2 r.1

/-- Embedding of `dijkstra_shortest_path` (lines 19-57): initialize every
graph vertex's distance to the infinity sentinel, set the start vertex to
0, seed the queue with `(0, start)`, and run the loop. -/
def dijkstra_shortest_path (g : List (Nat × List (Nat × Int))) (start : Nat)
    (fuel : Nat) : Option (List (Nat × DistVal)) :=
  let dist0 := g.map fun p => (p.1, (⊤ : DistVal))
  dijkstraLoop g fuel [(((0 : Int) : DistVal), start)] (dictSet dist0 start ((0 : Int) : DistVal))

/-- Reachability from `s` along the adjacency lists of `g`. -/
inductive Reachable (g : List (Nat × List (Nat × Int))) (s : Nat) : Nat → Prop
  | refl : Reachable g s s
  | step {u v : Nat} {w : Int} {es : List (Nat × Int)} :
      Reachable g s u → alookup u g = some es → (v, w) ∈ es → Reachable g s v

/- Association-list and queue facts. -/

theorem alookup_mem {β : Type} (k : Nat) (v : β) :
    ∀ m : List (Nat × β), alookup k m = some v → (k, v) ∈ m := by
  intro m
  induction m with
  | nil => intro h; simp [alookup] at h
  | cons p rest ih =>
    obtain ⟨a, b⟩ := p
    intro h
    simp only [alookup] at h
    by_cases hp : a = k
    · rw [if_pos hp] at h
      have hv := Option.some.inj h
      subst hp
      subst hv
      exact List.mem_cons_self _ _
    · rw [if_neg hp] at h
      exact List.mem_cons_of_mem _ (ih h)

theorem alookup_isSome_of_mem_fst {β : Type} {k : Nat} :
    ∀ {m : List (Nat × β)}, k ∈ m.map Prod.fst → (alookup k m).isSome := by
  intro m
  induction m with
  | nil => intro h; simp at h
  | cons p rest ih =>
    intro h
    simp only [alookup]
    by_cases hp : p.1 = k
    · rw [if_pos hp]
      rfl
    · rw [if_neg hp]
      apply ih
      simp only [List.map_cons, List.mem_cons] at h
      rcases h with h | h
      · exact absurd h.symm hp
      · exact h

theorem dictSet_map_fst (m : List (Nat × DistVal)) (k : Nat) (v : DistVal)
    (h : (alookup k m).isSome) : (dictSet m k v).map Prod.fst = m.map Prod.fst := by
  rw [dictSet, if_pos h, List.map_map]
  congr 1
  funext p
  by_cases hp : p.1 = k <;> simp [hp]

theorem mem_dictSet (m : List (Nat × DistVal)) (k : Nat) (v : DistVal)
    (h : (alookup k m).isSome) :
    ∀ p ∈ dictSet m k v, p = (k, v) ∨ p ∈ m := by
  rw [dictSet, if_pos h]
  intro p hp
  obtain ⟨q, hq, hfq⟩ := List.mem_map.mp hp
  by_cases h1 : q.1 = k
  · left
    rw [← hfq, if_pos h1, h1]
  · right
    rw [← hfq, if_neg h1]
    exact hq

theorem pqMin_mem : ∀ (q : List (DistVal × Nat)) (x : DistVal × Nat),
    pqMin q = some x → x ∈ q := by
  intro q
  induction q with
  | nil => intro x h; simp [pqMin] at h
  | cons a as ih =>
    intro x h
    cases hm : pqMin as with
    | none =>
      simp only [pqMin, hm] at h
      have hx := Option.some.inj h
      subst hx
      exact List.mem_cons_self _ _
    | some m =>
      simp only [pqMin, hm] at h
      have hx := Option.some.inj h
      by_cases hle : pqLe a m
      · rw [if_pos hle] at hx
        subst hx
        exact List.mem_cons_self _ _
      · rw [if_neg hle] at hx
        subst hx
        exact List.mem_cons_of_mem _ (ih _ hm)

/-- Loop invariant of the embedded Dijkstra: every queued vertex is
reachable, the distance dict's keys are exactly the graph's keys, and
every vertex holding a finite distance is reachable. -/
def DInv (g : List (Nat × List (Nat × Int))) (s : Nat)
    (q : List (DistVal × Nat)) (dist : List (Nat × DistVal)) : Prop :=
  (∀ p ∈ q, Reachable g s p.2) ∧
  dist.map Prod.fst = g.map Prod.fst ∧
  (∀ p ∈ dist, p.2 ≠ ⊤ → Reachable g s p.1)

theorem relaxEdges_inv {g : List (Nat × List (Nat × Int))} {s : Nat} (d : DistVal) :
    ∀ (es : List (Nat × Int)) (dist : List (Nat × DistVal)) (q : List (DistVal × Nat))
      (r : List (Nat × DistVal) × List (DistVal × Nat)),
      relaxEdges d es dist q = some r →
      DInv g s q dist →
      (∀ p ∈ es, Reachable g s p.1) →
      DInv g s r.2 r.1 := by
  intro es
  induction es with
  | nil =>
    intro dist q r h hinv _
    have := Option.some.inj h
    rw [← this]
    exact hinv
  | cons e rest ih =>
    obtain ⟨v, w⟩ := e
    intro dist q r h hinv hes
    simp only [relaxEdges] at h
    cases hdv : alookup v dist with
    | none => rw [hdv] at h; simp at h
    | some dv =>
      rw [hdv, Option.some_bind] at h
      have hvreach : Reachable g s v := hes (v, w) (List.mem_cons_self _ _)
      have hrest : ∀ p ∈ rest, Reachable g s p.1 :=
        fun p hp => hes p (List.mem_cons_of_mem _ hp)
      by_cases hlt : d + ((w : Int) : DistVal) < dv
      · rw [if_pos hlt] at h
        refine ih _ _ _ h ⟨?_, ?_, ?_⟩ hrest
        · intro p hp
          rcases List.mem_append.mp hp with h1 | h1
          · exact hinv.1 p h1
          · have : p = (d + ((w : Int) : DistVal), v) := List.mem_singleton.mp h1
            rw [this]
            exact hvreach
        · rw [dictSet_map_fst _ _ _ (by rw [hdv]; rfl)]
          exact hinv.2.1
        · intro p hp _
          rcases mem_dictSet dist v _ (by rw [hdv]; rfl) p hp with h1 | h1
          · rw [h1]
            exact hvreach
          · exact hinv.2.2 p h1 (by assumption)
      · rw [if_neg hlt] at h
        exact ih _ _ _ h hinv hrest

theorem dijkstraLoop_inv (g : List (Nat × List (Nat × Int))) (s : Nat) :
    ∀ (fuel : Nat) (q : List (DistVal × Nat)) (dist m : List (Nat × DistVal)),
      dijkstraLoop g fuel q dist = some m →
      DInv g s q dist →
      m.map Prod.fst = g.map Prod.fst ∧ (∀ p ∈ m, p.2 ≠ ⊤ → Reachable g s p.1) := by
  intro fuel
  induction fuel with
  | zero =>
    intro q dist m h hinv
    cases hq : pqMin q with
    | none =>
      simp only [dijkstraLoop, hq] at h
      have := Option.some.inj h
      rw [← this]
      exact ⟨hinv.2.1, hinv.2.2⟩
    | some du =>
      simp only [dijkstraLoop, hq] at h
      exact Option.noConfusion h
  | succ fuel ih =>
    intro q dist m h hinv
    cases hq : pqMin q with
    | none =>
      simp only [dijkstraLoop, hq] at h
      have := Option.some.inj h
      rw [← this]
      exact ⟨hinv.2.1, hinv.2.2⟩
    | some du =>
      simp only [dijkstraLoop, hq] at h
      have hq' : ∀ p ∈ q.erase du, Reachable g s p.2 :=
        fun p hp => hinv.1 p (List.mem_of_mem_erase hp)
      cases hdc : alookup du.2 dist with
      | none => rw [hdc] at h; simp at h
      | some dcur =>
        rw [hdc, Option.some_bind] at h
        by_cases hst : dcur < du.1
        · rw [if_pos hst] at h
          exact ih _ _ _ h ⟨hq', hinv.2.1, hinv.2.2⟩
        · rw [if_neg hst] at h
          cases hes : alookup du.2 g with
          | none => rw [hes] at h; simp at h
          | some es =>
            rw [hes, Option.some_bind] at h
            cases hr : relaxEdges du.1 es dist (q.erase du) with
            | none => rw [hr] at h; simp at h
            | some r =>
              rw [hr, Option.some_bind] at h
              have hdu : Reachable g s du.2 := hinv.1 du (pqMin_mem q du hq)
              have hreach : ∀ p ∈ es, Reachable g s p.1 := by
                intro p hp
                exact Reachable.step hdu hes (show (p.1, p.2) ∈ es from hp)
              exact ih _ _ _ h
                (relaxEdges_inv du.1 es dist (q.erase du) r hr
                  ⟨hq', hinv.2.1, hinv.2.2⟩ hreach)

/-- C5: for every adjacency-map graph and every start vertex among its
keys, whenever the embedded Dijkstra loop returns a distance map, that map
has exactly the graph's vertices as keys — an entry exists for every
vertex — and every vertex unreachable from the start is mapped to the
explicit infinity sentinel `⊤`, never absent. -/
theorem dijkstra_unreachable_infinite (g : List (Nat × List (Nat × Int)))
    (start : Nat) (fuel : Nat) (m : List (Nat × DistVal))
    (hstart : start ∈ g.map Prod.fst)
    (h : dijkstra_shortest_path g start fuel = some m) :
    m.map Prod.fst = g.map Prod.fst ∧
    (∀ v ∈ g.map Prod.fst, ∃ dv, alookup v m = some dv) ∧
    (∀ v ∈ g.map Prod.fst, ¬ Reachable g start v → alookup v m = some ⊤) := by
  rw [dijkstra_shortest_path] at h
  have hfst0 : (g.map fun p => (p.1, (⊤ : DistVal))).map Prod.fst = g.map Prod.fst := by
    rw [List.map_map]
    congr 1
  have hsome : (alookup start (g.map fun p => (p.1, (⊤ : DistVal)))).isSome :=
    alookup_isSome_of_mem_fst (by rw [hfst0]; exact hstart)
  have hinv : DInv g start [(((0:Int):DistVal), start)]
      (dictSet (g.map fun p => (p.1, (⊤ : DistVal))) start ((0:Int):DistVal)) := by
    refine ⟨?_, ?_, ?_⟩
    · intro p hp
      have hp' : p = (((0:Int):DistVal), start) := List.mem_singleton.mp hp
      rw [hp']
      exact Reachable.refl
    · rw [dictSet_map_fst _ _ _ hsome]
      exact hfst0
    · intro p hp hne
      rcases mem_dictSet _ start _ hsome p hp with h1 | h1
      · rw [h1]
        exact Reachable.refl
      · obtain ⟨q, _, hfq⟩ := List.mem_map.mp h1
        rw [← hfq] at hne
        simp at hne
  obtain ⟨h1, h2⟩ := dijkstraLoop_inv g start fuel _ _ m h hinv
  refine ⟨h1, ?_, ?_⟩
  · intro v hv
    exact Option.isSome_iff_exists.mp
      (alookup_isSome_of_mem_fst (m := m) (by rw [h1]; exact hv))
  · intro v hv hnr
    obtain ⟨dv, hdv⟩ := Option.isSome_iff_exists.mp
      (alookup_isSome_of_mem_fst (m := m) (by rw [h1]; exact hv))
    have hmem := alookup_mem v dv m hdv
    rcases eq_or_ne dv ⊤ with rfl | hne
    · exact hdv
    · exact absurd (h2 (v, dv) hmem hne) hnr

/-- A vertex different from the start with no incoming edge anywhere in
the graph is unreachable. -/
theorem not_reachable_no_incoming (g : List (Nat × List (Nat × Int))) (s v : Nat)
    (hv : v ≠ s) (hno : ∀ p ∈ g, ∀ e ∈ p.2, e.1 ≠ v) : ¬ Reachable g s v := by
  intro h
  cases h with
  | refl => exact hv rfl
  | step hu hlk hmem => exact hno _ (alookup_mem _ _ _ hlk) _ hmem rfl

/-- The spec's example graph {0:[(1,4),(2,1)], 1:[(3,1)], 2:[(1,2),(3,5)],
3:[]}, extended with an isolated vertex 4 unreachable from 0. -/
def exampleGraph : List (Nat × List (Nat × Int)) :=
  [(0, [(1, 4), (2, 1)]), (1, [(3, 1)]), (2, [(1, 2), (3, 5)]), (3, []), (4, [])]

/-- The distance map the embedded Dijkstra returns on `exampleGraph` from
start 0: the spec's expected distances {0:0, 1:3, 2:1, 3:4} and the
infinity sentinel at the unreachable vertex 4. -/
def exampleDistances : List (Nat × DistVal) :=
  [(0, ((0:Int):DistVal)), (1, ((3:Int):DistVal)), (2, ((1:Int):DistVal)),
    (3, ((4:Int):DistVal)), (4, (⊤:DistVal))]

/-- C5 witness: on the example graph the loop returns, every vertex has an
entry, and the unreachable vertex 4 is mapped to the infinity sentinel. -/
theorem dijkstra_unreachable_infinite_witness :
    (exampleDistances.map Prod.fst = exampleGraph.map Prod.fst ∧
      (∀ v ∈ exampleGraph.map Prod.fst, ∃ dv, alookup v exampleDistances = some dv) ∧
      (∀ v ∈ exampleGraph.map Prod.fst, ¬ Reachable exampleGraph 0 v →
        alookup v exampleDistances = some ⊤)) ∧
    ¬ Reachable exampleGraph 0 4 ∧
    alookup 4 exampleDistances = some (⊤ : DistVal) :=
  ⟨dijkstra_unreachable_infinite exampleGraph 0 10 exampleDistances (by decide) (by decide),
    not_reachable_no_incoming exampleGraph 0 4 (by decide) (by decide),
    by decide⟩
